import Mathlib

/-!
Verification development for the sail-lsp server core.

Strings from the Rust side are embedded as `List Char` (Rust `char` and Lean
`Char` are both Unicode scalar values); byte offsets into a Rust `&str` are
recovered as sums of per-character UTF-8 encoded lengths, UTF-16 column
offsets as sums of per-character UTF-16 code-unit lengths.
-/

/-- Number of bytes of the UTF-8 encoding of a character (Rust `char::len_utf8`). -/
def utf8Len (c : Char) : Nat :=
  if c.toNat < 0x80 then 1
  else if c.toNat < 0x800 then 2
  else if c.toNat < 0x10000 then 3
  else 4

/-- Number of UTF-16 code units of a character (Rust `char::len_utf16`). -/
def utf16Len (c : Char) : Nat :=
  if c.toNat < 0x10000 then 1 else 2

/-- Total UTF-8 byte length of a string (Rust `str::len`). -/
def byteLen (l : List Char) : Nat := (l.map utf8Len).sum

/-- Total UTF-16 code-unit length of a string. -/
def u16Len (l : List Char) : Nat := (l.map utf16Len).sum

theorem utf8Len_pos (c : Char) : 1 ≤ utf8Len c := by
  unfold utf8Len; split <;> try split <;> try split
  all_goals omega

theorem utf16Len_pos (c : Char) : 1 ≤ utf16Len c := by
  unfold utf16Len; split <;> omega

theorem byteLen_cons (c : Char) (l : List Char) :
    byteLen (c :: l) = utf8Len c + byteLen l := by
  simp [byteLen]

theorem u16Len_cons (c : Char) (l : List Char) :
    u16Len (c :: l) = utf16Len c + u16Len l := by
  simp [u16Len]

/-- Loop of `byte_to_utf16_offset` (src/utils.rs:3-12).  `i` is the byte
index of the current character (Rust `char_indices`), `acc` the UTF-16
offset accumulated so far; the loop returns `acc` as soon as `i >= byte_offset`,
and returns the full accumulated offset if the string is exhausted. -/
def b2uGo : List Char → Nat → Nat → Nat → Nat
  | [], _, _, acc => acc
  | c :: rest, i, bOff, acc =>
    if bOff ≤ i then acc
    else b2uGo rest (i + utf8Len c) bOff (acc + utf16Len c)

/-- `byte_to_utf16_offset` from src/utils.rs:3-12. -/
def byte_to_utf16_offset (line : List Char) (byteOffset : Nat) : Nat :=
  b2uGo line 0 byteOffset 0

/-- Loop of `utf16_offset_to_byte` (src/utils.rs:14-21).  `bIdx` is the byte
index of the current character, `uPos` the UTF-16 position accumulated so
far; the loop returns `bIdx` as soon as `uPos >= utf16_col`.  When the string
is exhausted `bIdx` equals the total byte length, mirroring the Rust
fall-through `line.len()`. -/
def u2bGo : List Char → Nat → Nat → Nat → Nat
  | [], bIdx, _, _ => bIdx
  | c :: rest, bIdx, uPos, col =>
    if col ≤ uPos then bIdx
    else u2bGo rest (bIdx + utf8Len c) (uPos + utf16Len c) col

/-- `utf16_offset_to_byte` from src/utils.rs:14-21. -/
def utf16_offset_to_byte (line : List Char) (utf16Col : Nat) : Nat :=
  u2bGo line 0 0 utf16Col

theorem b2uGo_boundary (line : List Char) :
    ∀ (k i acc : Nat), k ≤ line.length →
      b2uGo line i (i + byteLen (line.take k)) acc = acc + u16Len (line.take k) := by
  induction line with
  | nil => intro k i acc _; simp [b2uGo, byteLen, u16Len]
  | cons c rest ih =>
    intro k i acc hk
    cases k with
    | zero => simp [b2uGo, byteLen, u16Len]
    | succ k =>
      have h8 := utf8Len_pos c
      simp only [List.take_succ_cons, byteLen_cons, u16Len_cons]
      rw [b2uGo]
      have hnot : ¬ (i + (utf8Len c + byteLen (rest.take k)) ≤ i) := by omega
      rw [if_neg hnot]
      have := ih k (i + utf8Len c) (acc + utf16Len c)
        (by simpa using Nat.le_of_succ_le_succ hk)
      rw [show i + (utf8Len c + byteLen (rest.take k))
            = i + utf8Len c + byteLen (rest.take k) by omega]
      rw [this]; omega

theorem u2bGo_boundary (line : List Char) :
    ∀ (k bIdx uPos : Nat), k ≤ line.length →
      u2bGo line bIdx uPos (uPos + u16Len (line.take k)) = bIdx + byteLen (line.take k) := by
  induction line with
  | nil => intro k bIdx uPos _; simp [u2bGo, byteLen, u16Len]
  | cons c rest ih =>
    intro k bIdx uPos hk
    cases k with
    | zero => simp [u2bGo, byteLen, u16Len]
    | succ k =>
      have h16 := utf16Len_pos c
      simp only [List.take_succ_cons, byteLen_cons, u16Len_cons]
      rw [u2bGo]
      have hnot : ¬ (uPos + (utf16Len c + u16Len (rest.take k)) ≤ uPos) := by omega
      rw [if_neg hnot]
      have := ih k (bIdx + utf8Len c) (uPos + utf16Len c)
        (by simpa using Nat.le_of_succ_le_succ hk)
      rw [show uPos + (utf16Len c + u16Len (rest.take k))
            = uPos + utf16Len c + u16Len (rest.take k) by omega]
      rw [this]; omega

theorem byte_to_utf16_offset_boundary (line : List Char) (k : Nat) (hk : k ≤ line.length) :
    byte_to_utf16_offset line (byteLen (line.take k)) = u16Len (line.take k) := by
  have := b2uGo_boundary line k 0 0 hk
  simpa [byte_to_utf16_offset] using this

theorem utf16_offset_to_byte_boundary (line : List Char) (k : Nat) (hk : k ≤ line.length) :
    utf16_offset_to_byte line (u16Len (line.take k)) = byteLen (line.take k) := by
  have := u2bGo_boundary line k 0 0 hk
  simpa [utf16_offset_to_byte] using this

/-- An editor position as delivered in change events (lsp_types `Position`):
a 0-based line and a UTF-16 code-unit column. -/
structure LspPos where
  line : Nat
  character : Nat
deriving DecidableEq, Repr

/-- A range between two positions (lsp_types `Range`).  The source field
named `end` is rendered here as `stop`. -/
structure LspRange where
  start : LspPos
  stop : LspPos
deriving DecidableEq, Repr

/-- A content change event (lsp_types `TextDocumentContentChangeEvent`):
an optional range and the replacement text. -/
structure ChangeEvent where
  range : Option LspRange
  text : List Char
deriving DecidableEq, Repr

/-- The text of the line starting at the current iteration point: characters
up to (excluding) the next newline, mirroring
`line_rest[..line_rest.find('\n').unwrap_or(line_rest.len())]` (src/utils.rs:28-29). -/
def lineAt (rest : List Char) : List Char :=
  rest.takeWhile (fun c => c ≠ '\n')

/-- Loop of `position_to_byte_offset` (src/utils.rs:23-37).  `i` is the byte
index of the current character, `curLine` the number of newlines seen so far;
on reaching the target line it converts the UTF-16 column within that line,
and when the content is exhausted it returns the total byte length
(`content.len()`, which equals the accumulated `i`). -/
def p2bGo : List Char → Nat → Nat → Nat → Nat → Nat
  | [], i, _, _, _ => i
  | c :: rest, i, curLine, line, col =>
    if curLine = line then i + utf16_offset_to_byte (lineAt (c :: rest)) col
    else p2bGo rest (i + utf8Len c) (if c = '\n' then curLine + 1 else curLine) line col

/-- `position_to_byte_offset` from src/utils.rs:23-37. -/
def position_to_byte_offset (content : List Char) (pos : LspPos) : Nat :=
  p2bGo content 0 0 pos.line pos.character

/-- First `n` bytes of a string as characters; exact on character
boundaries (`content[..n]` never splits a character in the verified uses). -/
def takeBytes : List Char → Nat → List Char
  | [], _ => []
  | c :: rest, n => if utf8Len c ≤ n then c :: takeBytes rest (n - utf8Len c) else []

/-- The string with its first `n` bytes removed; exact on character
boundaries (`content[n..]`). -/
def dropBytes : List Char → Nat → List Char
  | [], _ => []
  | c :: rest, n => if 1 ≤ n then dropBytes rest (n - utf8Len c) else c :: rest

/-- `String::replace_range(start..end, text)` on byte offsets lying on
character boundaries. -/
def replaceBytes (content : List Char) (s e : Nat) (text : List Char) : List Char :=
  takeBytes content s ++ text ++ dropBytes content e

/-- One iteration of the `apply_changes` loop (src/utils.rs:40-50):
a ranged change is applied as a byte-range replacement guarded by
`start <= end && end <= content.len()`; a change with no range replaces the
whole text. -/
def applyOne (content : List Char) (change : ChangeEvent) : List Char :=
  match change.range with
  | some r =>
    let s := position_to_byte_offset content r.start
    let e := position_to_byte_offset content r.stop
    if s ≤ e ∧ e ≤ byteLen content then replaceBytes content s e change.text else content
  | none => change.text

/-- `apply_changes` from src/utils.rs:39-51. -/
def apply_changes (content : List Char) (changes : List ChangeEvent) : List Char :=
  changes.foldl applyOne content

theorem takeBytes_boundary : ∀ (l : List Char) (k : Nat), k ≤ l.length →
    takeBytes l (byteLen (l.take k)) = l.take k := by
  intro l
  induction l with
  | nil => intro k _; simp [takeBytes]
  | cons c rest ih =>
    intro k hk
    cases k with
    | zero =>
      have h8 := utf8Len_pos c
      simp only [List.take_zero, byteLen, List.map_nil, List.sum_nil, takeBytes]
      rw [if_neg (by omega)]
    | succ k =>
      simp only [List.take_succ_cons, byteLen_cons, takeBytes]
      rw [if_pos (by omega)]
      rw [show utf8Len c + byteLen (rest.take k) - utf8Len c = byteLen (rest.take k) by omega]
      rw [ih k (by simpa using Nat.le_of_succ_le_succ hk)]

theorem dropBytes_boundary : ∀ (l : List Char) (k : Nat), k ≤ l.length →
    dropBytes l (byteLen (l.take k)) = l.drop k := by
  intro l
  induction l with
  | nil => intro k _; simp [dropBytes]
  | cons c rest ih =>
    intro k hk
    cases k with
    | zero =>
      simp only [List.take_zero, byteLen, List.map_nil, List.sum_nil, dropBytes]
      rw [if_neg (by omega)]
      simp
    | succ k =>
      have h8 := utf8Len_pos c
      simp only [List.take_succ_cons, byteLen_cons, dropBytes]
      rw [if_pos (by omega)]
      rw [show utf8Len c + byteLen (rest.take k) - utf8Len c = byteLen (rest.take k) by omega]
      rw [ih k (by simpa using Nat.le_of_succ_le_succ hk)]
      simp

/-- C3: `byte_to_utf16_offset` and `utf16_offset_to_byte` are mutual inverses
at every valid character boundary of a line: for the byte offset of any
character-prefix of the line (including 0 and the full byte length),
byte→UTF-16→byte returns the same byte offset, and for the UTF-16 offset of
any character-prefix, UTF-16→byte→UTF-16 returns the same UTF-16 offset;
this holds for lines containing multi-byte and surrogate-pair characters. -/
theorem c3_offset_round_trip (line : List Char) (k : Nat) (hk : k ≤ line.length) :
    utf16_offset_to_byte line (byte_to_utf16_offset line (byteLen (line.take k)))
      = byteLen (line.take k)
    ∧ byte_to_utf16_offset line (utf16_offset_to_byte line (u16Len (line.take k)))
      = u16Len (line.take k) := by
  constructor
  · rw [byte_to_utf16_offset_boundary line k hk, utf16_offset_to_byte_boundary line k hk]
  · rw [utf16_offset_to_byte_boundary line k hk, byte_to_utf16_offset_boundary line k hk]

/-- Concrete round trip on a line holding an ASCII character, a three-byte
character (U+20AC) and a surrogate-pair character (U+1D11E), at the boundary
after the first two characters. -/
theorem c3_offset_round_trip_witness :
    utf16_offset_to_byte [Char.ofNat 97, Char.ofNat 8364, Char.ofNat 119070]
        (byte_to_utf16_offset [Char.ofNat 97, Char.ofNat 8364, Char.ofNat 119070]
          (byteLen ([Char.ofNat 97, Char.ofNat 8364, Char.ofNat 119070].take 2)))
      = byteLen ([Char.ofNat 97, Char.ofNat 8364, Char.ofNat 119070].take 2)
    ∧ byte_to_utf16_offset [Char.ofNat 97, Char.ofNat 8364, Char.ofNat 119070]
        (utf16_offset_to_byte [Char.ofNat 97, Char.ofNat 8364, Char.ofNat 119070]
          (u16Len ([Char.ofNat 97, Char.ofNat 8364, Char.ofNat 119070].take 2)))
      = u16Len ([Char.ofNat 97, Char.ofNat 8364, Char.ofNat 119070].take 2) :=
  c3_offset_round_trip [Char.ofNat 97, Char.ofNat 8364, Char.ofNat 119070] 2 (by decide)

/-- A byte offset is a character boundary of a string when it is the byte
length of some character-prefix. -/
def IsByteBoundary (content : List Char) (b : Nat) : Prop :=
  ∃ k, k ≤ content.length ∧ b = byteLen (content.take k)

theorem byteLen_append (l₁ l₂ : List Char) :
    byteLen (l₁ ++ l₂) = byteLen l₁ + byteLen l₂ := by
  simp [byteLen]

theorem byteLen_take_le (l : List Char) (k : Nat) : byteLen (l.take k) ≤ byteLen l := by
  conv_rhs => rw [← List.take_append_drop k l]
  rw [byteLen_append]
  omega

theorem take_of_takeWhile (p : Char → Bool) : ∀ (l : List Char) (k : Nat),
    k ≤ (l.takeWhile p).length → (l.takeWhile p).take k = l.take k := by
  intro l
  induction l with
  | nil => intro k _; simp
  | cons c rest ih =>
    intro k hk
    by_cases hp : p c
    · rw [List.takeWhile_cons_of_pos hp] at hk ⊢
      cases k with
      | zero => simp
      | succ k =>
        simp only [List.take_succ_cons]
        rw [ih k (by simpa using Nat.le_of_succ_le_succ hk)]
    · rw [List.takeWhile_cons_of_neg hp] at hk
      simp at hk
      simp [hk]

theorem length_takeWhile_le' (p : Char → Bool) (l : List Char) :
    (l.takeWhile p).length ≤ l.length := by
  induction l with
  | nil => simp
  | cons c rest ih =>
    by_cases hp : p c
    · rw [List.takeWhile_cons_of_pos hp]; simpa using ih
    · rw [List.takeWhile_cons_of_neg hp]; simp

theorem u2bGo_exists_boundary : ∀ (l : List Char) (bIdx uPos col : Nat),
    ∃ k, k ≤ l.length ∧ u2bGo l bIdx uPos col = bIdx + byteLen (l.take k) := by
  intro l
  induction l with
  | nil => intro bIdx uPos col; exact ⟨0, by simp [u2bGo, byteLen]⟩
  | cons c rest ih =>
    intro bIdx uPos col
    rw [u2bGo]
    by_cases h : col ≤ uPos
    · exact ⟨0, by simp [h, byteLen]⟩
    · rw [if_neg h]
      obtain ⟨k, hk, heq⟩ := ih (bIdx + utf8Len c) (uPos + utf16Len c) col
      exact ⟨k + 1, by simpa using hk, by
        rw [heq, List.take_succ_cons, byteLen_cons]; omega⟩

theorem utf16_offset_to_byte_exists_boundary (l : List Char) (col : Nat) :
    ∃ k, k ≤ l.length ∧ utf16_offset_to_byte l col = byteLen (l.take k) := by
  obtain ⟨k, hk, heq⟩ := u2bGo_exists_boundary l 0 0 col
  exact ⟨k, hk, by simpa [utf16_offset_to_byte] using heq⟩

theorem p2bGo_exists_boundary : ∀ (content : List Char) (i curLine line col : Nat),
    ∃ k, k ≤ content.length ∧
      p2bGo content i curLine line col = i + byteLen (content.take k) := by
  intro content
  induction content with
  | nil => intro i curLine line col; exact ⟨0, by simp [p2bGo, byteLen]⟩
  | cons c rest ih =>
    intro i curLine line col
    rw [p2bGo]
    by_cases h : curLine = line
    · rw [if_pos h]
      obtain ⟨k, hk, heq⟩ :=
        utf16_offset_to_byte_exists_boundary (lineAt (c :: rest)) col
      refine ⟨k, ?_, ?_⟩
      · exact le_trans hk (length_takeWhile_le' _ _)
      · rw [heq, lineAt, take_of_takeWhile _ _ k hk]
    · rw [if_neg h]
      obtain ⟨k, hk, heq⟩ :=
        ih (i + utf8Len c) (if c = '\n' then curLine + 1 else curLine) line col
      exact ⟨k + 1, by simpa using hk, by
        rw [heq, List.take_succ_cons, byteLen_cons]; omega⟩

theorem position_to_byte_offset_boundary (content : List Char) (pos : LspPos) :
    IsByteBoundary content (position_to_byte_offset content pos) := by
  obtain ⟨k, hk, heq⟩ := p2bGo_exists_boundary content 0 0 pos.line pos.character
  exact ⟨k, hk, by simpa [position_to_byte_offset] using heq⟩

theorem position_to_byte_offset_le (content : List Char) (pos : LspPos) :
    position_to_byte_offset content pos ≤ byteLen content := by
  obtain ⟨k, _, heq⟩ := position_to_byte_offset_boundary content pos
  rw [heq]
  exact byteLen_take_le content k

/-- C10: `position_to_byte_offset` is total and in-bounds for arbitrary
inputs — its result never exceeds the text's byte length and always lies on
a character boundary (out-of-range positions are clamped to line or document
end) — and an edit whose computed start offset exceeds its computed end
offset is skipped, leaving the text unchanged; hence no edit sequence makes
the byte-range replacement fault. -/
theorem c10_position_offset_safety :
    (∀ (content : List Char) (pos : LspPos),
      position_to_byte_offset content pos ≤ byteLen content
      ∧ IsByteBoundary content (position_to_byte_offset content pos))
    ∧ (∀ (content : List Char) (r : LspRange) (text : List Char),
      position_to_byte_offset content r.stop < position_to_byte_offset content r.start →
      applyOne content ⟨some r, text⟩ = content) := by
  constructor
  · intro content pos
    exact ⟨position_to_byte_offset_le content pos,
           position_to_byte_offset_boundary content pos⟩
  · intro content r text hlt
    simp only [applyOne]
    rw [if_neg (fun hc => absurd hc.1 (by omega))]

/-- Concrete skipped edit: in `"ab"`, an edit whose range runs from
character 1 back to character 0 computes start byte 1 and end byte 0 and is
skipped. -/
theorem c10_position_offset_safety_witness :
    applyOne ['a', 'b'] ⟨some ⟨⟨0, 1⟩, ⟨0, 0⟩⟩, ['c']⟩ = ['a', 'b'] :=
  c10_position_offset_safety.2 ['a', 'b'] ⟨⟨0, 1⟩, ⟨0, 0⟩⟩ ['c'] (by decide)

/-- Spec-side definition (C4): one edit applied as a `[start,end)` byte-range
replacement — text before `start`, then the new text, then text from `end`
on — with `start`/`end` derived from the event's UTF-16 line/character
positions via the stated conversion rule, or a full text replacement when
the event carries no range.  Written from the spec's words, to be compared
with `applyOne`. -/
def specApplyOne (content : List Char) (change : ChangeEvent) : List Char :=
  match change.range with
  | some r =>
    takeBytes content (position_to_byte_offset content r.start)
      ++ change.text
      ++ dropBytes content (position_to_byte_offset content r.stop)
  | none => change.text

/-- Spec-side sequential application of a whole edit sequence. -/
def spec_apply_changes (content : List Char) (changes : List ChangeEvent) : List Char :=
  changes.foldl specApplyOne content

/-- Well-formedness of an edit sequence against an initial text: at every
step, the byte offset computed for the range start does not exceed the one
computed for the range end (so that `[start,end)` denotes a byte range). -/
def wfChanges : List Char → List ChangeEvent → Bool
  | _, [] => true
  | content, change :: rest =>
    (match change.range with
     | some r => decide (position_to_byte_offset content r.start
                          ≤ position_to_byte_offset content r.stop)
     | none => true)
    && wfChanges (applyOne content change) rest

theorem applyOne_eq_specApplyOne (content : List Char) (change : ChangeEvent)
    (h : match change.range with
         | some r => position_to_byte_offset content r.start
                       ≤ position_to_byte_offset content r.stop
         | none => True) :
    applyOne content change = specApplyOne content change := by
  cases hr : change.range with
  | none => simp [applyOne, specApplyOne, hr]
  | some r =>
    rw [hr] at h
    simp only [applyOne, specApplyOne, hr]
    rw [if_pos ⟨h, position_to_byte_offset_le content r.stop⟩]
    rfl

/-- C4: for any initial document text and any sequence of content-change
events whose computed byte ranges are well formed, `apply_changes` produces
exactly the text obtained by sequentially applying each edit as a
`[start,end)` byte-range replacement (or a full text replacement when the
event carries no range), with `start` and `end` derived from the event's
UTF-16 line/character positions via the stated conversion rule. -/
theorem c4_apply_changes_is_sequential_replacement :
    ∀ (changes : List ChangeEvent) (content : List Char),
      wfChanges content changes = true →
      apply_changes content changes = spec_apply_changes content changes := by
  intro changes
  induction changes with
  | nil => intro content _; rfl
  | cons change rest ih =>
    intro content hwf
    rw [wfChanges, Bool.and_eq_true] at hwf
    have hcond : match change.range with
        | some r => position_to_byte_offset content r.start
                      ≤ position_to_byte_offset content r.stop
        | none => True := by
      cases hr : change.range with
      | none => trivial
      | some r =>
        have := hwf.1; rw [hr] at this
        exact of_decide_eq_true this
    have heq := applyOne_eq_specApplyOne content change hcond
    show apply_changes (applyOne content change) rest
        = spec_apply_changes (specApplyOne content change) rest
    rw [ih (applyOne content change) hwf.2, heq]

/-- Concrete edit sequence: a full replacement followed by a ranged
single-character replacement agrees with the spec-side sequential
application. -/
theorem c4_apply_changes_is_sequential_replacement_witness :
    apply_changes ['a', 'b']
        [⟨none, ['x', 'y']⟩, ⟨some ⟨⟨0, 1⟩, ⟨0, 2⟩⟩, ['z']⟩]
      = spec_apply_changes ['a', 'b']
        [⟨none, ['x', 'y']⟩, ⟨some ⟨⟨0, 1⟩, ⟨0, 2⟩⟩, ['z']⟩] :=
  c4_apply_changes_is_sequential_replacement
    [⟨none, ['x', 'y']⟩, ⟨some ⟨⟨0, 1⟩, ⟨0, 2⟩⟩, ['z']⟩] ['a', 'b'] (by decide)

/-- An event observed by the debounce thread's `recv_timeout` loop
(src/main.rs:74-105): either a `(uri, force)` request arriving on the
channel, or a 500 ms quiet-window timeout.  Channel disconnection (which
breaks the loop) is modelled by the end of the event list. -/
inductive DebEvent where
  | ev (uri : String) (force : Bool)
  | quiet
deriving DecidableEq, Repr

/-- The action a flush takes under the session lock (src/main.rs:89-95):
`reload` issues the incremental `:reload` command, `restart` spawns a fresh
process. -/
inductive FlushAction where
  | reload
  | restart
deriving DecidableEq, Repr

/-- One flushed batch: the documents drained from the pending map, the OR of
their force flags, and the action taken. -/
structure Flush where
  docs : List String
  anyForce : Bool
  action : FlushAction
deriving DecidableEq, Repr

/-- `pending_requests.entry(uri).or_insert(false); *entry |= force`
(src/main.rs:77-78): merge an event into the pending map, OR-combining the
force flag for a document already present.  The map is modelled as an
association list in first-insertion order. -/
def mergePending : List (String × Bool) → String → Bool → List (String × Bool)
  | [], u, f => [(u, f)]
  | (v, g) :: rest, u, f =>
    if v = u then (v, g || f) :: rest else (v, g) :: mergePending rest u f

/-- The debounce loop (src/main.rs:74-105).  `fileUri u` models
`Url::to_file_path` succeeding for `u`; `alive k` models `repl.is_alive()`
at the `k`-th successful flush.  On a quiet-window timeout with a non-empty
pending map the map is drained as one batch; with `any_force` false and the
session alive the flush issues the incremental reload, otherwise it spawns
fresh.  When the representative (first-inserted) document is not a file
path the drained batch is dropped without a flush. -/
def debounceRun (fileUri : String → Bool) (alive : Nat → Bool) :
    List DebEvent → List (String × Bool) → Nat → List Flush
  | [], _, _ => []
  | .ev u f :: rest, pend, k => debounceRun fileUri alive rest (mergePending pend u f) k
  | .quiet :: rest, pend, k =>
    match pend with
    | [] => debounceRun fileUri alive rest [] k
    | (u0, f0) :: ps =>
      let reqs := (u0, f0) :: ps
      let anyF := reqs.any (fun p => p.2)
      if fileUri u0 then
        ⟨reqs.map Prod.fst, anyF,
          if !anyF && alive k then FlushAction.reload else FlushAction.restart⟩
          :: debounceRun fileUri alive rest [] (k + 1)
      else debounceRun fileUri alive rest [] k

/-- C1: when the events `(docA,false)`, `(docA,false)`, `(docB,true)` arrive
within one quiet window, exactly one batch is flushed; it contains both
`docA` and `docB`, its `any_force` flag — the OR of all merged flags, with
the repeated `docA` events OR-combined — is `true`, and the flush performs a
fresh spawn (restart) rather than the incremental reload, whatever the
session's liveness. -/
theorem c1_debounce_coalesces_to_one_forced_restart
    (docA docB : String) (fileUri : String → Bool) (alive : Nat → Bool)
    (hne : docA ≠ docB) (hfile : fileUri docA = true) :
    debounceRun fileUri alive
        [DebEvent.ev docA false, DebEvent.ev docA false, DebEvent.ev docB true,
         DebEvent.quiet] [] 0
      = [⟨[docA, docB], true, FlushAction.restart⟩] := by
  simp [debounceRun, mergePending, hne, hfile, List.any]

/-- Concrete run of the C1 scenario with two distinct file documents. -/
theorem c1_debounce_coalesces_to_one_forced_restart_witness :
    debounceRun (fun _ => true) (fun _ => true)
        [DebEvent.ev "file:///a.sail" false, DebEvent.ev "file:///a.sail" false,
         DebEvent.ev "file:///b.sail" true, DebEvent.quiet] [] 0
      = [⟨["file:///a.sail", "file:///b.sail"], true, FlushAction.restart⟩] :=
  c1_debounce_coalesces_to_one_forced_restart "file:///a.sail" "file:///b.sail"
    (fun _ => true) (fun _ => true) (by decide) rfl

/-- An editor notification as dispatched in `main_loop` (src/main.rs:169-203). -/
inductive Notif where
  | didOpen (uri : String) (text : List Char)
  | didChange (uri : String) (changes : List ChangeEvent)
  | didSave (uri : String)
  | didClose (uri : String)

/-- Replace-or-insert into the open-document map (modelled as an
association list), as `HashMap::insert` on open. -/
def fsInsert : List (String × List Char) → String → List Char → List (String × List Char)
  | [], u, t => [(u, t)]
  | (v, s) :: rest, u, t =>
    if v = u then (v, t) :: rest else (v, s) :: fsInsert rest u t

/-- Update the document's text in place when the document is open, as
`files.get_mut` followed by `apply_changes` on change. -/
def fsUpdate : List (String × List Char) → String → List ChangeEvent → List (String × List Char)
  | [], _, _ => []
  | (v, s) :: rest, u, cs =>
    if v = u then (v, apply_changes s cs) :: rest else (v, s) :: fsUpdate rest u cs

/-- Remove the document, as `HashMap::remove` on close. -/
def fsRemove : List (String × List Char) → String → List (String × List Char)
  | [], _ => []
  | (v, s) :: rest, u => if v = u then rest else (v, s) :: fsRemove rest u

/-- The notification dispatch of `main_loop` (src/main.rs:169-203): each
notification updates the open-document map and optionally enqueues one
`(uri, force)` debounce request on `diag_tx`.  Open inserts the text and
sends `(uri, true)`; change applies the edits and sends `(uri, false)`;
save sends `(uri, false)`; close removes the document and sends nothing. -/
def handleNotif (files : List (String × List Char)) :
    Notif → List (String × List Char) × Option (String × Bool)
  | .didOpen u t => (fsInsert files u t, some (u, true))
  | .didChange u cs => (fsUpdate files u cs, some (u, false))
  | .didSave u => (files, some (u, false))
  | .didClose u => (fsRemove files u, none)

/-- C2 fails on the code: a save notification enqueues a debounce request
with `force = false`, not `force = true` as the claim states. -/
theorem c2_counterexample_save_sends_force_false :
    ¬ ((handleNotif [] (Notif.didSave "file:///a.sail")).2
        = some ("file:///a.sail", true)) := by
  simp [handleNotif]

/-- C2 (amended): an open notification enqueues a debounce request with
`force = true` (forcing a clean restart at the next flush), while change
and save notifications each enqueue `force = false` (preferring an
incremental reload when the session is alive); close enqueues nothing. -/
theorem c2_notification_force_flags (files : List (String × List Char))
    (u : String) (t : List Char) (cs : List ChangeEvent) :
    (handleNotif files (Notif.didOpen u t)).2 = some (u, true)
    ∧ (handleNotif files (Notif.didChange u cs)).2 = some (u, false)
    ∧ (handleNotif files (Notif.didSave u)).2 = some (u, false)
    ∧ (handleNotif files (Notif.didClose u)).2 = none := by
  refine ⟨rfl, rfl, rfl, rfl⟩

/-- Concrete instance of the amended C2 flag assignment. -/
theorem c2_notification_force_flags_witness :
    (handleNotif [] (Notif.didOpen "file:///a.sail" ['x'])).2
        = some ("file:///a.sail", true)
    ∧ (handleNotif [] (Notif.didChange "file:///a.sail" [])).2
        = some ("file:///a.sail", false)
    ∧ (handleNotif [] (Notif.didSave "file:///a.sail")).2
        = some ("file:///a.sail", false)
    ∧ (handleNotif [] (Notif.didClose "file:///a.sail")).2 = none :=
  c2_notification_force_flags [] "file:///a.sail" ['x'] []

/-- `needle` is a leading segment of `hay` (Rust `str::starts_with`). -/
def leadsWith : List Char → List Char → Bool
  | [], _ => true
  | _ :: _, [] => false
  | t :: ts, h :: hs => h = t && leadsWith ts hs

/-- `needle` occurs somewhere inside `hay` (Rust `str::contains`). -/
def occursIn (nd : List Char) : List Char → Bool
  | [] => nd.isEmpty
  | h :: hs => leadsWith nd (h :: hs) || occursIn nd hs

/-- Strip a leading tag, returning the remainder when the tag is present. -/
def dropTag : List Char → List Char → Option (List Char)
  | [], hay => some hay
  | _ :: _, [] => none
  | t :: ts, h :: hs => if h = t then dropTag ts hs else none

/-- The stderr tag prepended by the stderr reader thread (src/repl.rs:60). -/
def stderrTag : List Char := "STDERR:".toList

/-- An ASCII decimal digit, as matched by the diagnostic pattern. -/
def isDigitC (c : Char) : Bool := '0' ≤ c && c ≤ '9'

/-- Numeric value of a digit run. -/
def digitsVal (ds : List Char) : Nat :=
  ds.foldl (fun a c => a * 10 + (c.toNat - 48)) 0

/-- Greedy `\d+`: a non-empty maximal digit run and the remainder. -/
def parseNum (l : List Char) : Option (Nat × List Char) :=
  let p := l.span isDigitC
  if p.1.isEmpty then none else some (digitsVal p.1, p.2)

/-- Expect one literal character. -/
def expectC (c : Char) : List Char → Option (List Char)
  | x :: r => if x = c then some r else none
  | [] => none

/-- The tail of the diagnostic location pattern after the file-path group:
`:(\d+)\.(\d+)-(\d+)\.(\d+): (.*)` from `get_diag_regex`
(src/state.rs:37-40); the trailing group takes the rest of the line up to a
newline. -/
def parseLocTail (l : List Char) : Option (Nat × Nat × Nat × Nat × List Char) :=
  (expectC ':' l).bind fun r1 =>
  (parseNum r1).bind fun q1 =>
  (expectC '.' q1.2).bind fun r2 =>
  (parseNum r2).bind fun q2 =>
  (expectC '-' q2.2).bind fun r3 =>
  (parseNum r3).bind fun q3 =>
  (expectC '.' q3.2).bind fun r4 =>
  (parseNum r4).bind fun q4 =>
  (expectC ':' q4.2).bind fun r5 =>
  (expectC ' ' r5).bind fun r6 =>
  some (q1.1, q2.1, q3.1, q4.1, r6.takeWhile (fun c => c ≠ '\n'))

/-- Scan for the lazy file-path group `(.*?)`: the shortest character run
(not crossing a newline) after which the rest of the location pattern
matches.  `acc` holds the group's characters in reverse. -/
def scanLoc (acc rest : List Char) :
    Option (List Char × Nat × Nat × Nat × Nat × List Char) :=
  match parseLocTail rest with
  | some (l1, c1, l2, c2, msg) => some (acc.reverse, l1, c1, l2, c2, msg)
  | none =>
    match rest with
    | [] => none
    | c :: rs => if c = '\n' then none else scanLoc (c :: acc) rs

/-- Match of the full anchored diagnostic pattern
`^STDERR:(.*?):(\d+)\.(\d+)-(\d+)\.(\d+): (.*)` against one output line,
yielding the captured path, the four numbers and the message. -/
def parseLocLine (line : List Char) :
    Option (List Char × Nat × Nat × Nat × Nat × List Char) :=
  match dropTag stderrTag line with
  | some rest => scanLoc [] rest
  | none => none

/-- A published diagnostic: target document, 0-based range and message
(severity is constantly ERROR in the source and is omitted). -/
structure Diag where
  uri : String
  startLine : Nat
  startChar : Nat
  endLine : Nat
  endChar : Nat
  message : String
deriving DecidableEq, Repr

/-- Clamp of `str::parse::<u32>().ok().unwrap_or(dflt)`: digit runs whose
value does not fit in a `u32` fall back to the default. -/
def fitU32 (v dflt : Nat) : Nat := if v < 4294967296 then v else dflt

/-- A path is absolute when it starts with the separator. -/
def isAbsL : List Char → Bool
  | '/' :: _ => true
  | _ => false

/-- `PathBuf::join` on the model: an empty base leaves the path relative. -/
def joinPath (base p : List Char) : List Char :=
  if base.isEmpty then p else base ++ '/' :: p

/-- Resolution of a captured diagnostic path (src/main.rs:222-229): an
absolute path stands; a relative one is joined to the project root, or to
the representative document's directory when no root is set. -/
def resolveDiagPath (root : Option (List Char)) (fbDir p : List Char) : List Char :=
  if isAbsL p then p else joinPath (match root with | some r => r | none => fbDir) p

/-- `Url::from_file_path`: succeeds exactly on absolute paths; the document
identity is modelled by the path itself. -/
def toUri (p : List Char) : Option String :=
  if isAbsL p then some (String.mk p) else none

def optToList : Option Diag → List Diag
  | some d => [d]
  | none => []

/-- State of the parsing loop of `publish_diagnostics_batch`
(src/main.rs:211-255): the diagnostic under construction (`current_diag`),
the diagnostics flushed so far in open order (`file_diagnostics`, whose
per-document lists are recovered by filtering), and the documents recorded
for reporting in open order (the insertions into `uris_to_report`). -/
structure ParseSt where
  cur : Option Diag
  diags : List Diag
  uris : List String
deriving DecidableEq, Repr

/-- One iteration of the parsing loop over an output line
(src/main.rs:215-255).  A line matching the location pattern flushes the
diagnostic under construction and — when its path resolves to a document —
opens a new one with the 1-based line numbers decremented by one (as a
saturating subtraction) and the columns taken verbatim, recording the
document; a non-matching `STDERR:`-tagged line appends its untagged text
after a newline to the diagnostic under construction; other lines are
ignored. -/
def procStep (root : Option (List Char)) (fbDir : List Char)
    (st : ParseSt) (line : List Char) : ParseSt :=
  match parseLocLine line with
  | some (p, l1, c1, l2, c2, msg) =>
    match toUri (resolveDiagPath root fbDir p) with
    | some u =>
      { cur := some ⟨u, fitU32 l1 1 - 1, fitU32 c1 0,
                     fitU32 l2 1 - 1, fitU32 c2 0, String.mk msg⟩,
        diags := st.diags ++ optToList st.cur,
        uris := st.uris ++ [u] }
    | none =>
      { cur := none, diags := st.diags ++ optToList st.cur, uris := st.uris }
  | none =>
    if leadsWith stderrTag line then
      match st.cur with
      | some d =>
        { st with cur := some { d with message := d.message ++ "\n" ++ String.mk (line.drop 7) } }
      | none => st
    else st

/-- The whole parsing loop (src/main.rs:214-258), with the final flush of
the diagnostic still under construction (src/main.rs:256-258): returns the
flushed diagnostics in open order and the recorded documents in open
order. -/
def procLines (root : Option (List Char)) (fbDir : List Char)
    (output : List (List Char)) : List Diag × List String :=
  let fin := output.foldl (procStep root fbDir) ⟨none, [], []⟩
  (fin.diags ++ optToList fin.cur, fin.uris)

/-- `publish_diagnostics_batch` (src/main.rs:210-271): parse the output,
then send one publication per document in the union of the pending set and
the documents named by parsed diagnostics; a document with no parsed
diagnostics receives the empty list. -/
def publishBatch (root : Option (List Char)) (fbDir : List Char)
    (output : List (List Char)) (pend : List String) : List (String × List Diag) :=
  let res := procLines root fbDir output
  ((pend ++ res.2).dedup).map (fun u => (u, res.1.filter (fun d => d.uri == u)))

/-- C5: the output line `STDERR:/proj/a.sail:3.2-3.5: type mismatch`
followed by the continuation line `STDERR: expected int` yields exactly one
diagnostic, on `/proj/a.sail`, with range line 2 character 2 through line 2
character 5 (the parsed 1-based line numbers decremented by one, columns
verbatim) and message `type mismatch` + newline + ` expected int`. -/
theorem c5_diagnostic_parse_example :
    publishBatch none []
        ["STDERR:/proj/a.sail:3.2-3.5: type mismatch".toList,
         "STDERR: expected int".toList] []
      = [("/proj/a.sail",
          [⟨"/proj/a.sail", 2, 2, 2, 5, "type mismatch\n expected int"⟩])] := by
  decide

/-- Invariant of the parsing loop: every flushed diagnostic, and the
diagnostic under construction, names a recorded document. -/
def ParseInv (st : ParseSt) : Prop :=
  (∀ d ∈ st.diags, d.uri ∈ st.uris) ∧ (∀ d, st.cur = some d → d.uri ∈ st.uris)

theorem procStep_preserves_inv (root : Option (List Char)) (fbDir : List Char)
    (st : ParseSt) (line : List Char) (h : ParseInv st) :
    ParseInv (procStep root fbDir st line) := by
  obtain ⟨h1, h2⟩ := h
  cases hp : parseLocLine line with
  | some tup =>
    obtain ⟨p, l1, c1, l2, c2, msg⟩ := tup
    cases hu : toUri (resolveDiagPath root fbDir p) with
    | some u =>
      simp only [ParseInv, procStep, hp, hu]
      refine ⟨?_, ?_⟩
      · intro d hd
        rcases List.mem_append.mp hd with hd | hd
        · exact List.mem_append.mpr (Or.inl (h1 d hd))
        · cases hc : st.cur with
          | none => rw [hc] at hd; simp [optToList] at hd
          | some c =>
            rw [hc] at hd; simp [optToList] at hd
            exact List.mem_append.mpr (Or.inl (hd ▸ h2 c hc))
      · intro d hd
        cases Option.some.inj hd
        exact List.mem_append.mpr (Or.inr (by simp))
    | none =>
      simp only [ParseInv, procStep, hp, hu]
      refine ⟨?_, ?_⟩
      · intro d hd
        rcases List.mem_append.mp hd with hd | hd
        · exact h1 d hd
        · cases hc : st.cur with
          | none => rw [hc] at hd; simp [optToList] at hd
          | some c =>
            rw [hc] at hd; simp [optToList] at hd
            exact hd ▸ h2 c hc
      · intro d hd; simp at hd
  | none =>
    by_cases ht : leadsWith stderrTag line = true
    · cases hc : st.cur with
      | none =>
        simp only [ParseInv, procStep, hp, ht, if_true, hc]
        exact ⟨h1, fun d hd => h2 d (hc ▸ hd)⟩
      | some c =>
        simp only [ParseInv, procStep, hp, ht, if_true, hc]
        refine ⟨h1, ?_⟩
        intro d hd
        cases Option.some.inj hd
        exact h2 c hc
    · rw [Bool.not_eq_true] at ht
      simp only [ParseInv, procStep, hp, ht, Bool.false_eq_true, if_false]
      exact ⟨h1, h2⟩

theorem foldl_preserves_inv (root : Option (List Char)) (fbDir : List Char) :
    ∀ (lines : List (List Char)) (st : ParseSt), ParseInv st →
      ParseInv (lines.foldl (procStep root fbDir) st) := by
  intro lines
  induction lines with
  | nil => intro st h; exact h
  | cons line rest ih =>
    intro st h
    exact ih (procStep root fbDir st line) (procStep_preserves_inv root fbDir st line h)

theorem procLines_diag_uri_recorded (root : Option (List Char)) (fbDir : List Char)
    (output : List (List Char)) (d : Diag)
    (hd : d ∈ (procLines root fbDir output).1) :
    d.uri ∈ (procLines root fbDir output).2 := by
  have hinv := foldl_preserves_inv root fbDir output ⟨none, [], []⟩
    ⟨by intro d hd; simp at hd, by intro d hd; simp at hd⟩
  simp only [procLines] at hd ⊢
  rcases List.mem_append.mp hd with hd | hd
  · exact hinv.1 d hd
  · cases hc : (output.foldl (procStep root fbDir) ⟨none, [], []⟩).cur with
    | none => rw [hc] at hd; simp [optToList] at hd
    | some c =>
      rw [hc] at hd; simp [optToList] at hd
      exact hd ▸ hinv.2 c hc

theorem publishBatch_fst (root : Option (List Char)) (fbDir : List Char)
    (output : List (List Char)) (pend : List String) :
    (publishBatch root fbDir output pend).map Prod.fst
      = (pend ++ (procLines root fbDir output).2).dedup := by
  simp only [publishBatch, List.map_map]
  exact List.map_id _

/-- C6: one publication batch covers exactly the union of the documents
pending in the cycle and the documents named by parsed diagnostics; every
document of that union is published exactly once; and a pending document for
which no diagnostic was parsed receives the empty diagnostics list (an
explicit cleared publication). -/
theorem c6_publish_batch_covers_union (root : Option (List Char)) (fbDir : List Char)
    (output : List (List Char)) (pend : List String) (u : String) :
    ((publishBatch root fbDir output pend).map Prod.fst).Nodup
    ∧ (u ∈ (publishBatch root fbDir output pend).map Prod.fst
        ↔ u ∈ pend ∨ u ∈ (procLines root fbDir output).2)
    ∧ (u ∈ pend → u ∉ (procLines root fbDir output).2 →
        (u, ([] : List Diag)) ∈ publishBatch root fbDir output pend) := by
  refine ⟨?_, ?_, ?_⟩
  · rw [publishBatch_fst]
    exact List.nodup_dedup _
  · rw [publishBatch_fst, List.mem_dedup, List.mem_append]
  · intro hp hnot
    have hmem : u ∈ (pend ++ (procLines root fbDir output).2).dedup := by
      rw [List.mem_dedup, List.mem_append]; exact Or.inl hp
    have hfil : (procLines root fbDir output).1.filter
        (fun d => d.uri == u) = [] := by
      rw [List.filter_eq_nil_iff]
      intro d hd hbeq
      have : d.uri = u := by simpa using hbeq
      exact hnot (this ▸ procLines_diag_uri_recorded root fbDir output d hd)
    have : (u, (procLines root fbDir output).1.filter (fun d => d.uri == u))
        ∈ publishBatch root fbDir output pend := by
      simp only [publishBatch]
      exact List.mem_map.mpr ⟨u, hmem, rfl⟩
    rwa [hfil] at this

/-- Concrete cleared publication: with no parseable output, a pending
document is still published, with the empty diagnostics list. -/
theorem c6_publish_batch_covers_union_witness :
    ("file:///q.sail", ([] : List Diag))
      ∈ publishBatch none [] ["loading".toList] ["file:///q.sail"] :=
  (c6_publish_batch_covers_union none [] ["loading".toList]
      ["file:///q.sail"] "file:///q.sail").2.2 (by decide) (by decide)

/-- One outcome of `rx.recv_timeout(100ms)` inside the `wait_for_prompt`
loop (src/repl.rs:76-85): a received line, a 100 ms receive timeout (the
loop continues), or channel disconnection (the loop breaks).  The overall
5 s / 30 s wall-clock budget is modelled by the finiteness of the event
list: exhausting it is the `start.elapsed() >= timeout` exit. -/
inductive RecvEv where
  | line (s : List Char)
  | tick
  | closed
deriving DecidableEq, Repr

/-- The idle-marker text tested by `line.contains("Sail REPL>")`
(src/repl.rs:79). -/
def replMarker : List Char := "Sail REPL>".toList

/-- The collection loop of `wait_for_prompt` (src/repl.rs:72-88) over the
events its receiver yields within the time budget: a line containing the
idle marker stops collection and is itself excluded; other lines are
accumulated; receive timeouts continue; disconnection stops collection. -/
def waitBody : List RecvEv → List (List Char)
  | [] => []
  | RecvEv.line s :: rest =>
    if occursIn replMarker s then [] else s :: waitBody rest
  | RecvEv.tick :: rest => waitBody rest
  | RecvEv.closed :: _ => []

/-- The `SailRepl` session as `execute` sees it: `stdinW = none` models no
process input stream (`self.stdin` is `None`, never spawned), and
`stdinW = some ok` a present stream whose `writeln!` succeeds iff `ok`;
`rx = none` models the absent receiver before any spawn, `rx = some evs`
the receiver together with the events it will yield within the time
budget. -/
structure SailRepl where
  stdinW : Option Bool
  rx : Option (List RecvEv)

/-- `wait_for_prompt` (src/repl.rs:72-88): with no receiver it returns no
lines; otherwise it runs the collection loop. -/
def wait_for_prompt (r : SailRepl) : List (List Char) :=
  match r.rx with
  | some evs => waitBody evs
  | none => []

/-- `send_command` (src/repl.rs:90-96): when a stdin stream is present the
command is written to it, and a failed write returns the empty result at
once; then (also when no stream is present) the output is collected with
`wait_for_prompt` under the 5 s budget. -/
def send_command (r : SailRepl) (cmd : List Char) : List (List Char) :=
  match r.stdinW with
  | some ok => if ok then wait_for_prompt r else []
  | none => wait_for_prompt r

/-- Events that neither carry the idle marker nor end the channel: the
loop collects every line among them. -/
def cleanEvs : List RecvEv → Bool
  | [] => true
  | RecvEv.line s :: rest => !occursIn replMarker s && cleanEvs rest
  | RecvEv.tick :: rest => cleanEvs rest
  | RecvEv.closed :: _ => false

/-- The line payloads of an event list. -/
def linesOf : List RecvEv → List (List Char)
  | [] => []
  | RecvEv.line s :: rest => s :: linesOf rest
  | RecvEv.tick :: rest => linesOf rest
  | RecvEv.closed :: rest => linesOf rest

theorem waitBody_until_marker :
    ∀ (pre : List RecvEv) (s : List Char) (post : List RecvEv),
      cleanEvs pre = true → occursIn replMarker s = true →
      waitBody (pre ++ RecvEv.line s :: post) = linesOf pre := by
  intro pre
  induction pre with
  | nil =>
    intro s post _ hm
    simp [waitBody, linesOf, hm]
  | cons e rest ih =>
    intro s post hc hm
    cases e with
    | line t =>
      rw [cleanEvs, Bool.and_eq_true, Bool.not_eq_true'] at hc
      simp only [List.cons_append, waitBody, linesOf, hc.1, Bool.false_eq_true, if_false]
      exact congrArg (t :: ·) (ih s post hc.2 hm)
    | tick =>
      rw [cleanEvs] at hc
      simp only [List.cons_append, waitBody, linesOf]
      exact ih s post hc hm
    | closed => simp [cleanEvs] at hc

theorem waitBody_all_lines :
    ∀ (evs : List RecvEv), cleanEvs evs = true → waitBody evs = linesOf evs := by
  intro evs
  induction evs with
  | nil => intro _; rfl
  | cons e rest ih =>
    intro hc
    cases e with
    | line t =>
      rw [cleanEvs, Bool.and_eq_true, Bool.not_eq_true'] at hc
      simp only [waitBody, linesOf, hc.1, Bool.false_eq_true, if_false]
      rw [ih hc.2]
    | tick =>
      rw [cleanEvs] at hc
      simp only [waitBody, linesOf]
      exact ih hc
    | closed => simp [cleanEvs] at hc

/-- C7: `send_command` with a writable input stream collects output lines
until a line containing the idle marker is observed or the time budget is
exhausted: when a marker line arrives after marker-free events, it returns
exactly the lines collected before the marker, the marker line itself
excluded and everything after it unread; and when the budget runs out with
no marker observed, it returns every line collected so far (partial output)
rather than an error. -/
theorem c7_send_command_collects_until_marker :
    (∀ (pre : List RecvEv) (s : List Char) (post : List RecvEv) (cmd : List Char),
      cleanEvs pre = true → occursIn replMarker s = true →
      send_command ⟨some true, some (pre ++ RecvEv.line s :: post)⟩ cmd = linesOf pre)
    ∧ (∀ (evs : List RecvEv) (cmd : List Char),
      cleanEvs evs = true →
      send_command ⟨some true, some evs⟩ cmd = linesOf evs) := by
  constructor
  · intro pre s post cmd hc hm
    show waitBody (pre ++ RecvEv.line s :: post) = linesOf pre
    exact waitBody_until_marker pre s post hc hm
  · intro evs cmd hc
    show waitBody evs = linesOf evs
    exact waitBody_all_lines evs hc

/-- Concrete run: two output lines, a timeout tick, then the prompt line
and a further line; the command returns exactly the two lines. -/
theorem c7_send_command_collects_until_marker_witness :
    send_command
        ⟨some true,
         some [RecvEv.line "ok 1".toList, RecvEv.tick, RecvEv.line "ok 2".toList,
               RecvEv.line "Sail REPL> ".toList, RecvEv.line "late".toList]⟩
        ":reload".toList
      = ["ok 1".toList, "ok 2".toList] :=
  c7_send_command_collects_until_marker.1
    [RecvEv.line "ok 1".toList, RecvEv.tick, RecvEv.line "ok 2".toList]
    "Sail REPL> ".toList [RecvEv.line "late".toList] ":reload".toList
    (by decide) (by decide)

/-- C8: when the session's input stream is unavailable — no process was
ever spawned (no stdin and no receiver), or writing the command fails —
`send_command` returns the empty result at once, with no lines and no
wait on the receiver. -/
theorem c8_send_command_unavailable_input_empty (r : SailRepl) (cmd : List Char)
    (h : (r.stdinW = none ∧ r.rx = none) ∨ r.stdinW = some false) :
    send_command r cmd = [] := by
  cases h with
  | inl h =>
    simp [send_command, wait_for_prompt, h.1, h.2]
  | inr h =>
    simp [send_command, h]

/-- Concrete run: on the never-spawned session every command returns the
empty result. -/
theorem c8_send_command_unavailable_input_empty_witness :
    send_command ⟨none, none⟩ ":t foo".toList = [] :=
  c8_send_command_unavailable_input_empty ⟨none, none⟩ ":t foo".toList
    (Or.inl ⟨rfl, rfl⟩)

/-- An observable action of caller thread `t` against the shared session.
Every command round trip in the source runs under the `state.repl` mutex
(`state.repl.lock()` in `handle_hover`, src/handlers.rs:21-24, and in the
debounce thread, src/main.rs:88-95), so a command write and the observation
of its terminating idle marker happen while holding the lock. -/
inductive LockAct where
  | acquire (t : Nat)
  | write (t : Nat)
  | marker (t : Nat)
  | release (t : Nat)
deriving DecidableEq, Repr

/-- Small-step semantics of the mutex around the session: the state is the
current lock holder.  A thread acquires only a free lock; it writes a
command, observes an idle marker, and releases only while it is the
holder. -/
inductive LockStep : Option Nat → LockAct → Option Nat → Prop
  | acquire (t : Nat) : LockStep none (LockAct.acquire t) (some t)
  | write (t : Nat) : LockStep (some t) (LockAct.write t) (some t)
  | marker (t : Nat) : LockStep (some t) (LockAct.marker t) (some t)
  | release (t : Nat) : LockStep (some t) (LockAct.release t) none

/-- Traces reachable from a given lock state. -/
inductive ValidFrom : Option Nat → List LockAct → Prop
  | nil (h : Option Nat) : ValidFrom h []
  | cons {h : Option Nat} {a : LockAct} {h' : Option Nat} {rest : List LockAct} :
      LockStep h a h' → ValidFrom h' rest → ValidFrom h (a :: rest)

theorem validFrom_append :
    ∀ (xs ys : List LockAct) (h : Option Nat),
      ValidFrom h (xs ++ ys) → ∃ h', ValidFrom h' ys := by
  intro xs
  induction xs with
  | nil => intro ys h hv; exact ⟨h, hv⟩
  | cons a rest ih =>
    intro ys h hv
    cases hv with
    | cons hs hv' => exact ih ys _ hv'

theorem holder_write_forces_release (i : Nat) :
    ∀ (bs : List LockAct) (j : Nat) (cs : List LockAct),
      ValidFrom (some i) (bs ++ LockAct.write j :: cs) →
      LockAct.release i ∈ bs ∨ j = i := by
  intro bs
  induction bs with
  | nil =>
    intro j cs hv
    cases hv with
    | cons hs _ => cases hs; exact Or.inr rfl
  | cons b rest ih =>
    intro j cs hv
    cases hv with
    | cons hs hv' =>
      cases hs with
      | write t => cases ih j cs hv' with
        | inl h => exact Or.inl (List.mem_cons_of_mem _ h)
        | inr h => exact Or.inr h
      | marker t => cases ih j cs hv' with
        | inl h => exact Or.inl (List.mem_cons_of_mem _ h)
        | inr h => exact Or.inr h
      | release t => exact Or.inl (List.mem_cons_self _ _)

theorem holder_marker_forces_release (i : Nat) :
    ∀ (bs : List LockAct) (m : Nat) (cs : List LockAct),
      ValidFrom (some i) (bs ++ LockAct.marker m :: cs) →
      LockAct.release i ∈ bs ∨ m = i := by
  intro bs
  induction bs with
  | nil =>
    intro m cs hv
    cases hv with
    | cons hs _ => cases hs; exact Or.inr rfl
  | cons b rest ih =>
    intro m cs hv
    cases hv with
    | cons hs hv' =>
      cases hs with
      | write t => cases ih m cs hv' with
        | inl h => exact Or.inl (List.mem_cons_of_mem _ h)
        | inr h => exact Or.inr h
      | marker t => cases ih m cs hv' with
        | inl h => exact Or.inl (List.mem_cons_of_mem _ h)
        | inr h => exact Or.inr h
      | release t => exact Or.inl (List.mem_cons_self _ _)

/-- C9: in every trace respecting the mutex semantics and the code's
hold-the-lock-for-the-round-trip discipline, commands are serialized: a
second thread's command write can occur after a first thread's write only
once the first thread has released the lock — which it does only after its
marker wait concludes — so no second write happens while the first round
trip is in flight; and any idle marker observed before the writing thread
releases belongs to that thread, unambiguously terminating that command's
output. -/
theorem c9_commands_serialized_by_lock :
    (∀ (tr as bs cs : List LockAct) (i j : Nat),
      ValidFrom none tr →
      tr = as ++ LockAct.write i :: bs ++ LockAct.write j :: cs →
      i ≠ j → LockAct.release i ∈ bs)
    ∧ (∀ (tr as bs cs : List LockAct) (i m : Nat),
      ValidFrom none tr →
      tr = as ++ LockAct.write i :: bs ++ LockAct.marker m :: cs →
      LockAct.release i ∉ bs → m = i) := by
  constructor
  · intro tr as bs cs i j hv hdec hij
    subst hdec
    rw [List.append_assoc] at hv
    obtain ⟨h', hv'⟩ :=
      validFrom_append as ((LockAct.write i :: bs) ++ LockAct.write j :: cs) none hv
    cases hv' with
    | cons hs hv'' =>
      cases hs
      cases holder_write_forces_release i bs j cs hv'' with
      | inl h => exact h
      | inr h => exact absurd h.symm hij
  · intro tr as bs cs i m hv hdec hnrel
    subst hdec
    rw [List.append_assoc] at hv
    obtain ⟨h', hv'⟩ :=
      validFrom_append as ((LockAct.write i :: bs) ++ LockAct.marker m :: cs) none hv
    cases hv' with
    | cons hs hv'' =>
      cases hs
      cases holder_marker_forces_release i bs m cs hv'' with
      | inl h => exact absurd h hnrel
      | inr h => exact h

/-- Concrete interleaving: thread 0 runs a full round trip, then thread 1
acquires and writes; the serialization theorem places thread 0's release
before thread 1's write. -/
theorem c9_commands_serialized_by_lock_witness :
    LockAct.release 0 ∈ [LockAct.marker 0, LockAct.release 0, LockAct.acquire 1] :=
  c9_commands_serialized_by_lock.1
    [LockAct.acquire 0, LockAct.write 0, LockAct.marker 0, LockAct.release 0,
     LockAct.acquire 1, LockAct.write 1]
    [LockAct.acquire 0] [LockAct.marker 0, LockAct.release 0, LockAct.acquire 1] []
    0 1
    (ValidFrom.cons (LockStep.acquire 0)
      (ValidFrom.cons (LockStep.write 0)
        (ValidFrom.cons (LockStep.marker 0)
          (ValidFrom.cons (LockStep.release 0)
            (ValidFrom.cons (LockStep.acquire 1)
              (ValidFrom.cons (LockStep.write 1) (ValidFrom.nil (some 1))))))))
    rfl (by decide)
